import Mathlib

set_option maxRecDepth 8000

/-!
Shallow embedding of `networkx/algorithms/traversal/edgedfs.py`: the
`Direction` enum, the `helper_funcs` adapter (candidate-edge enumerator,
edge-identity canonicalizer, traversed tail/head extractor) and the
`edge_dfs` traversal engine, together with proofs of the specified
properties.
-/

/-- Traversal direction tag of a directed edge: `Forward` means the edge was
walked from its stored tail to its stored head, `Reverse` the opposite.
Mirrors the `Direction` enum of the source. -/
inductive Direction where
  | Forward
  | Reverse
deriving DecidableEq, Repr

/-- A candidate edge as handled by the traversal: stored tail and head,
an optional multiplicity key (present for multigraphs) and an optional
direction tag (attached by the adapter in the tagged orientation modes).
This models the Python tuples `(u, v)`, `(u, v, key)`, `(u, v, dir)` and
`(u, v, key, dir)`. -/
structure Edge where
  tail : Nat
  head : Nat
  mkey : Option Nat := none
  dir : Option Direction := none
deriving DecidableEq, Repr

/-- The host graph collaborator: directedness flag, node list, and the three
per-node ordered edge enumerations the algorithm consults
(`G.out_edges`, `G.in_edges`, `G.edges_iter`), stored as association lists
from node to edge list. -/
structure Graph where
  is_directed : Bool
  nodes : List Nat
  outAdj : List (Nat × List Edge)
  inAdj : List (Nat × List Edge)
  iterAdj : List (Nat × List Edge)

/-- Look a node up in a per-node association list; absent nodes enumerate
no edges. -/
def lookupEdges (m : List (Nat × List Edge)) (u : Nat) : List Edge :=
  match m.find? (fun p => decide (p.1 = u)) with
  | some p => p.2
  | none => []

/-- Host method `G.out_edges(u)`. -/
def Graph.out_edges (g : Graph) (u : Nat) : List Edge :=
  lookupEdges g.outAdj u

/-- Host method `G.in_edges(u)`. -/
def Graph.in_edges (g : Graph) (u : Nat) : List Edge :=
  lookupEdges g.inAdj u

/-- Host method `G.edges_iter(u)`: for directed graphs the out-edges of `u`,
for undirected graphs the incident edges of `u` with `u` first. -/
def Graph.edges_iter (g : Graph) (u : Nat) : List Edge :=
  lookupEdges g.iterAdj u

/-- Host method `G.nbunch_iter(source)`: with no source, every node of the
graph in its stable order; with an explicit list, its members that are nodes
of the graph, in the given order. -/
def nbunch_iter (g : Graph) (source : Option (List Nat)) : List Nat :=
  match source with
  | none => g.nodes
  | some l => l.filter (fun u => decide (u ∈ g.nodes))

/-- `ignore_orientation` flag of `helper_funcs`. -/
def ignore_orientation (g : Graph) (orientation : String) : Bool :=
  g.is_directed && decide (orientation = "ignore")

/-- `reverse_orientation` flag of `helper_funcs`. -/
def reverse_orientation (g : Graph) (orientation : String) : Bool :=
  g.is_directed && decide (orientation = "reverse")

/-- The candidate-edge enumerator `out_edges` produced by `helper_funcs`:
under `ignore` (directed) the out-edges tagged `Forward` followed by the
in-edges tagged `Reverse`; under `reverse` (directed) the in-edges tagged
`Reverse`; otherwise the host's `edges_iter`. -/
def out_edges (g : Graph) (orientation : String) (u : Nat) : List Edge :=
  if ignore_orientation g orientation then
    (g.out_edges u).map (fun e => { e with dir := some Direction.Forward })
      ++ (g.in_edges u).map (fun e => { e with dir := some Direction.Reverse })
  else if reverse_orientation g orientation then
    (g.in_edges u).map (fun e => { e with dir := some Direction.Reverse })
  else
    g.edges_iter u

/-- Canonical edge identity, the value stored in the visited-edge set:
for tagged modes the edge without its direction tag (`edge[:-1]`); for
directed graphs under original orientation the edge itself; for undirected
graphs the unordered endpoint pair (`frozenset(edge[:2])`, represented as
the (min, max) normal form) followed by the rest of the edge. -/
inductive EdgeId where
  | tagged (u v : Nat) (k : Option Nat)
  | whole (e : Edge)
  | unordered (a b : Nat) (k : Option Nat) (d : Option Direction)
deriving DecidableEq, Repr

/-- The edge-identity canonicalizer `key` produced by `helper_funcs`. -/
def key (g : Graph) (orientation : String) (e : Edge) : EdgeId :=
  if ignore_orientation g orientation || reverse_orientation g orientation then
    EdgeId.tagged e.tail e.head e.mkey
  else if g.is_directed then
    EdgeId.whole e
  else
    EdgeId.unordered (min e.tail e.head) (max e.tail e.head) e.mkey e.dir

/-- `traversed_tailhead` of `helper_funcs`: the tail and head of an edge as
it was traversed — swapped for a `Reverse`-tagged edge in the tagged modes,
the stored endpoints otherwise. -/
def traversed_tailhead (g : Graph) (orientation : String) (e : Edge) : Nat × Nat :=
  if (ignore_orientation g orientation || reverse_orientation g orientation)
      && decide (e.dir = some Direction.Reverse) then
    (e.head, e.tail)
  else
    (e.tail, e.head)

/-- The mutable state of one `edge_dfs` call: the remaining start nodes of
the outer `for` loop, the traversal stack, the visited-edge and
visited-node sets, the per-node pending-edge lists (`edges` defaultdict)
and the accumulated yields. -/
structure DfsState where
  roots : List Nat
  stack : List Nat
  visited_edges : List EdgeId
  visited_nodes : List Nat
  edges : List (Nat × List Edge)
  out : List Edge
deriving DecidableEq, Repr

/-- Replace (or create) the entry of node `u` in a per-node association
list. -/
def setEdges (m : List (Nat × List Edge)) (u : Nat) (l : List Edge) :
    List (Nat × List Edge) :=
  match m with
  | [] => [(u, l)]
  | p :: rest => if p.1 = u then (u, l) :: rest else p :: setEdges rest u l

/-- The first-visit block of the loop body: if `current` has not been
node-visited, extend its pending list with its candidate edges, reverse it
(so edges are later consumed in host enumeration order) and mark the node
visited. -/
def populate_state (g : Graph) (o : String) (st : DfsState) (current : Nat) :
    DfsState :=
  if current ∈ st.visited_nodes then st
  else
    { st with
      edges := setEdges st.edges current
        ((lookupEdges st.edges current ++ out_edges g o current).reverse),
      visited_nodes := current :: st.visited_nodes }

/-- One iteration of the traversal engine: start the next root when the
stack is empty; otherwise populate the top node if needed, then either
backtrack (empty pending list), silently drop an already-visited edge, or
yield a new edge, push `edge[1]` and record its identity. Returns `none`
when both the stack and the roots are exhausted. -/
def dfs_step (g : Graph) (o : String) (st : DfsState) : Option DfsState :=
  match st.stack with
  | [] =>
    match st.roots with
    | [] => none
    | r :: rs => some { st with roots := rs, stack := [r] }
  | current :: rest =>
    let st1 := populate_state g o st current
    match (lookupEdges st1.edges current).getLast? with
    | none => some { st1 with stack := rest }
    | some e =>
      let st2 := { st1 with
        edges := setEdges st1.edges current
          (lookupEdges st1.edges current).dropLast }
      if key g o e ∈ st2.visited_edges then some st2
      else
        some { st2 with
          visited_edges := key g o e :: st2.visited_edges,
          stack := e.head :: st2.stack,
          out := st2.out ++ [e] }

/-- Run the step function for at most `fuel` iterations, stopping early when
it reports completion. -/
def loop_run (f : DfsState → Option DfsState) : Nat → DfsState → DfsState
  | 0, st => st
  | fuel + 1, st =>
    match f st with
    | none => st
    | some st' => loop_run f fuel st'

/-- Every node for which the host graph stores any edge enumeration; nodes
outside this list enumerate no candidate edges. -/
def univNodes (g : Graph) : List Nat :=
  g.outAdj.map Prod.fst ++ g.inAdj.map Prod.fst ++ g.iterAdj.map Prod.fst

/-- Every canonical identity of a candidate edge of any node of
`univNodes`; the visited-edge set only ever receives members of this
list. -/
def univIds (g : Graph) (o : String) : List EdgeId :=
  (univNodes g).flatMap (fun u => (out_edges g o u).map (key g o))

/-- A fuel budget sufficient for the traversal to run to completion. -/
def fuelBound (g : Graph) (o : String) (nodes : List Nat) : Nat :=
  ((univIds g o).length + (univNodes g).length) * ((univIds g o).length + 2)
    + 2 * nodes.length

/-- The state at the start of a traversal: all sources pending as roots,
everything else empty. -/
def init_state (nodes : List Nat) : DfsState :=
  { roots := nodes, stack := [], visited_edges := [], visited_nodes := [],
    edges := [], out := [] }

/-- The edge depth-first traversal `edge_dfs(G, source, orientation)`:
resolve the sources via `nbunch_iter`; with no sources the generator ends
at once with an empty sequence; otherwise drive the stack machine to
completion and return the yielded edges in order. -/
def edge_dfs (g : Graph) (source : Option (List Nat)) (orientation : String) :
    List Edge :=
  let nodes := nbunch_iter g source
  if nodes.isEmpty then []
  else
    (loop_run (dfs_step g orientation) (fuelBound g orientation nodes)
      (init_state nodes)).out

/-! Concrete graphs used by the scenario proofs, witnesses and
counterexamples. -/

/-- The stored edge (0,1). -/
def e01 : Edge := { tail := 0, head := 1 }

/-- The stored edge (1,0). -/
def e10 : Edge := { tail := 1, head := 0 }

/-- The stored edge (2,1). -/
def e21 : Edge := { tail := 2, head := 1 }

/-- The stored edge (3,1). -/
def e31 : Edge := { tail := 3, head := 1 }

/-- The stored edge (1,2). -/
def e12 : Edge := { tail := 1, head := 2 }

/-- The directed simple graph of the spec scenario: nodes 0..3, edge list
[(0,1),(1,0),(1,0),(2,1),(3,1)] (the duplicate (1,0) collapses in a simple
graph), with insertion-order host enumerations. -/
def g_C5 : Graph :=
  { is_directed := true, nodes := [0, 1, 2, 3],
    outAdj := [(0, [e01]), (1, [e10]), (2, [e21]), (3, [e31])],
    inAdj := [(0, [e10]), (1, [e01, e21, e31]), (2, []), (3, [])],
    iterAdj := [(0, [e01]), (1, [e10]), (2, [e21]), (3, [e31])] }

/-- The directed chain 0 → 1 → 2. -/
def g_chain : Graph :=
  { is_directed := true, nodes := [0, 1, 2],
    outAdj := [(0, [e01]), (1, [e12]), (2, [])],
    inAdj := [(0, []), (1, [e01]), (2, [e12])],
    iterAdj := [(0, [e01]), (1, [e12]), (2, [])] }

/-- The directed graph with the single edge 0 → 1. -/
def g_01 : Graph :=
  { is_directed := true, nodes := [0, 1],
    outAdj := [(0, [e01]), (1, [])],
    inAdj := [(0, []), (1, [e01])],
    iterAdj := [(0, [e01]), (1, [])] }

/-- The undirected simple graph of the spec scenario: nodes 0..3 with
edges 0–1, 1–2, 1–3; `edges_iter` lists each incident edge with the queried
node first, in insertion order. -/
def g_und : Graph :=
  { is_directed := false, nodes := [0, 1, 2, 3],
    outAdj := [], inAdj := [],
    iterAdj := [(0, [{ tail := 0, head := 1 }]),
                (1, [{ tail := 1, head := 0 }, { tail := 1, head := 2 },
                     { tail := 1, head := 3 }]),
                (2, [{ tail := 2, head := 1 }]),
                (3, [{ tail := 3, head := 1 }])] }

/-- The empty directed graph. -/
def g_empty : Graph :=
  { is_directed := true, nodes := [], outAdj := [], inAdj := [], iterAdj := [] }

/-! Orientation-congruence helpers: the whole traversal depends on the
orientation string only through the two mode flags. -/

/-- The candidate-edge enumerator is determined by the two mode flags. -/
lemma out_edges_congr (g : Graph) (o1 o2 : String)
    (hi : ignore_orientation g o1 = ignore_orientation g o2)
    (hr : reverse_orientation g o1 = reverse_orientation g o2) :
    out_edges g o1 = out_edges g o2 := by
  funext u
  simp only [out_edges, hi, hr]

/-- The edge-identity canonicalizer is determined by the two mode flags. -/
lemma key_congr (g : Graph) (o1 o2 : String)
    (hi : ignore_orientation g o1 = ignore_orientation g o2)
    (hr : reverse_orientation g o1 = reverse_orientation g o2) :
    key g o1 = key g o2 := by
  funext e
  simp only [key, hi, hr]

/-- The step function is determined by the two mode flags. -/
lemma dfs_step_congr (g : Graph) (o1 o2 : String)
    (hi : ignore_orientation g o1 = ignore_orientation g o2)
    (hr : reverse_orientation g o1 = reverse_orientation g o2) :
    dfs_step g o1 = dfs_step g o2 := by
  have h1 := out_edges_congr g o1 o2 hi hr
  have h2 := key_congr g o1 o2 hi hr
  funext st
  simp only [dfs_step, populate_state, h1, h2]

/-- The whole traversal is determined by the two mode flags. -/
lemma edge_dfs_congr (g : Graph) (s : Option (List Nat)) (o1 o2 : String)
    (hi : ignore_orientation g o1 = ignore_orientation g o2)
    (hr : reverse_orientation g o1 = reverse_orientation g o2) :
    edge_dfs g s o1 = edge_dfs g s o2 := by
  have h1 := out_edges_congr g o1 o2 hi hr
  have h2 := key_congr g o1 o2 hi hr
  have h3 := dfs_step_congr g o1 o2 hi hr
  simp only [edge_dfs, fuelBound, univIds, h1, h2, h3]

/-- C1: an empty resolved source list makes `edge_dfs` produce an empty
sequence of edges rather than an error. -/
theorem edge_dfs_empty_sources (g : Graph) (s : Option (List Nat))
    (o : String) (h : nbunch_iter g s = []) : edge_dfs g s o = [] := by
  simp [edge_dfs, h]

/-- C1 witness: the empty graph with no source has an empty resolved source
list and an empty traversal. -/
theorem edge_dfs_empty_sources_witness : edge_dfs g_empty none "original" = [] :=
  edge_dfs_empty_sources g_empty none "original" (by decide)

/-- C5: the directed simple graph of the spec scenario with sources
[0,1,2,3] and orientation `ignore` yields exactly
[(0,1,Forward), (1,0,Forward), (2,1,Reverse), (3,1,Reverse)]. -/
theorem edge_dfs_scenario_digraph_ignore :
    edge_dfs g_C5 (some [0, 1, 2, 3]) "ignore" =
      [{ tail := 0, head := 1, mkey := none, dir := some Direction.Forward },
       { tail := 1, head := 0, mkey := none, dir := some Direction.Forward },
       { tail := 2, head := 1, mkey := none, dir := some Direction.Reverse },
       { tail := 3, head := 1, mkey := none, dir := some Direction.Reverse }] := by
  decide

/-- C9: `edge_dfs` is deterministic — two runs with the same graph, source
and orientation produce identical sequences. -/
theorem edge_dfs_deterministic (g : Graph) (s : Option (List Nat))
    (o : String) (l1 l2 : List Edge) (h1 : l1 = edge_dfs g s o)
    (h2 : l2 = edge_dfs g s o) : l1 = l2 :=
  h1.trans h2.symm

/-- C9 witness: two runs on the scenario graph agree. -/
theorem edge_dfs_deterministic_witness :
    edge_dfs g_C5 (some [0, 1, 2, 3]) "ignore" =
      edge_dfs g_C5 (some [0, 1, 2, 3]) "ignore" :=
  edge_dfs_deterministic g_C5 (some [0, 1, 2, 3]) "ignore" _ _ rfl rfl

/-- C7: on an undirected graph the edge-identity canonicalizer is
order-insensitive on the endpoints: the identity of (u,v) equals the
identity of (v,u) with the same multiplicity key. -/
theorem key_undirected_symm (g : Graph) (o : String)
    (h : g.is_directed = false) (u v : Nat) (k : Option Nat)
    (d : Option Direction) :
    key g o { tail := u, head := v, mkey := k, dir := d } =
      key g o { tail := v, head := u, mkey := k, dir := d } := by
  simp [key, ignore_orientation, reverse_orientation, h, Nat.min_comm,
    Nat.max_comm]

/-- C7 witness: on the undirected scenario graph, identity(1,2) =
identity(2,1). -/
theorem key_undirected_symm_witness :
    key g_und "original" { tail := 1, head := 2, mkey := none, dir := none } =
      key g_und "original" { tail := 2, head := 1, mkey := none, dir := none } :=
  key_undirected_symm g_und "original" rfl 1 2 none none

/-- C2 (failing input): on the chain 0 → 1 → 2 with orientation `reverse`
and source 2, the engine pushes the raw `edge[1]` (the current node) instead
of the traversed head returned by `traversed_tailhead`, so it never descends
into node 1 and yields only (1,2,Reverse) — although the extractor reports
the traversed head of that edge as node 1, from which the edge (0,1) is
reachable in one reverse step (third conjunct). -/
theorem edge_dfs_reverse_no_descent :
    edge_dfs g_chain (some [2]) "reverse" =
      [{ tail := 1, head := 2, mkey := none, dir := some Direction.Reverse }] ∧
    traversed_tailhead g_chain "reverse"
      { tail := 1, head := 2, mkey := none, dir := some Direction.Reverse } =
        (2, 1) ∧
    edge_dfs g_chain (some [1]) "reverse" =
      [{ tail := 0, head := 1, mkey := none, dir := some Direction.Reverse }] := by
  decide

/-- C3 counterexample: on the directed graph with the single stored edge
(0,1), traversed with orientation `reverse` from source 1, the yielded tuple
is (0,1,Reverse) — its tail and head are the stored ones, not swapped (a
swapped tuple would be (1,0,Reverse)). -/
theorem edge_dfs_reverse_not_swapped_cex :
    edge_dfs g_01 (some [1]) "reverse" =
      [{ tail := 0, head := 1, mkey := none, dir := some Direction.Reverse }] ∧
    ({ tail := 0, head := 1, mkey := none, dir := some Direction.Reverse } : Edge) ≠
      { tail := 1, head := 0, mkey := none, dir := some Direction.Reverse } := by
  decide

/-- C6: on an undirected graph (simple or multigraph) the orientation mode
has no effect on the output of `edge_dfs`: any two modes, meaningful or
not, give identical sequences and no error is raised. -/
theorem edge_dfs_undirected_orientation_irrelevant (g : Graph)
    (h : g.is_directed = false) (s : Option (List Nat)) (o1 o2 : String) :
    edge_dfs g s o1 = edge_dfs g s o2 :=
  edge_dfs_congr g s o1 o2
    (by simp [ignore_orientation, h])
    (by simp [reverse_orientation, h])

/-- C6 witness: on the undirected scenario graph, `reverse` and `ignore`
produce the same sequence. -/
theorem edge_dfs_undirected_orientation_irrelevant_witness :
    edge_dfs g_und (some [0, 1, 2, 3]) "reverse" =
      edge_dfs g_und (some [0, 1, 2, 3]) "ignore" :=
  edge_dfs_undirected_orientation_irrelevant g_und rfl (some [0, 1, 2, 3])
    "reverse" "ignore"

/-- C10: an orientation argument other than "ignore" and "reverse" is never
rejected — the mode checks compare only against those two strings, so any
other value behaves exactly like "original" on every graph. -/
theorem edge_dfs_unknown_orientation (g : Graph) (s : Option (List Nat))
    (o : String) (h1 : o ≠ "ignore") (h2 : o ≠ "reverse") :
    edge_dfs g s o = edge_dfs g s "original" :=
  edge_dfs_congr g s o "original"
    (by simp [ignore_orientation, h1])
    (by simp [reverse_orientation, h2])

/-- C10 witness: orientation "foo" behaves like "original" on the directed
scenario graph. -/
theorem edge_dfs_unknown_orientation_witness :
    edge_dfs g_C5 (some [0, 1, 2, 3]) "foo" =
      edge_dfs g_C5 (some [0, 1, 2, 3]) "original" :=
  edge_dfs_unknown_orientation g_C5 (some [0, 1, 2, 3]) "foo"
    (by decide) (by decide)

/-! Small utilities about the association lists and the pending lists. -/

/-- The last element of a list, when present, is a member. -/
lemma mem_of_getLast?_eq_some {α : Type} {l : List α} {a : α}
    (h : l.getLast? = some a) : a ∈ l := by
  induction l with
  | nil => simp at h
  | cons b bs ih =>
    cases hbs : bs with
    | nil =>
      subst hbs
      simp [List.getLast?] at h
      simp [h]
    | cons c cs =>
      subst hbs
      rw [List.getLast?_cons_cons] at h
      exact List.mem_cons_of_mem b (ih h)

/-- A member of a looked-up pending list belongs to some entry of the
association list. -/
lemma mem_of_mem_lookupEdges {m : List (Nat × List Edge)} {u : Nat} {e : Edge}
    (h : e ∈ lookupEdges m u) : ∃ p ∈ m, e ∈ p.2 := by
  induction m with
  | nil => simp [lookupEdges, List.find?] at h
  | cons p ps ih =>
    by_cases hpu : p.1 = u
    · refine ⟨p, List.mem_cons_self p ps, ?_⟩
      unfold lookupEdges at h
      rw [List.find?_cons_of_pos _ (by simpa using hpu)] at h
      exact h
    · unfold lookupEdges at h
      rw [List.find?_cons_of_neg _ (by simpa using hpu)] at h
      have h' : e ∈ lookupEdges ps u := h
      rcases ih h' with ⟨q, hq, he⟩
      exact ⟨q, List.mem_cons_of_mem p hq, he⟩

/-- Membership after replacing an entry: either the new entry or an old
one. -/
lemma mem_setEdges {m : List (Nat × List Edge)} {u : Nat} {l : List Edge}
    {q : Nat × List Edge} (h : q ∈ setEdges m u l) : q = (u, l) ∨ q ∈ m := by
  induction m with
  | nil =>
    simp [setEdges] at h
    exact Or.inl h
  | cons p ps ih =>
    by_cases hpu : p.1 = u
    · rw [setEdges, if_pos hpu] at h
      rcases List.mem_cons.mp h with h1 | h1
      · exact Or.inl h1
      · exact Or.inr (List.mem_cons_of_mem p h1)
    · rw [setEdges, if_neg hpu] at h
      rcases List.mem_cons.mp h with h1 | h1
      · exact Or.inr (by simp [h1])
      · rcases ih h1 with h' | h'
        · exact Or.inl h'
        · exact Or.inr (List.mem_cons_of_mem p h')

/-- Looking up the entry just written returns the written list. -/
lemma lookupEdges_setEdges_self (m : List (Nat × List Edge)) (u : Nat)
    (l : List Edge) : lookupEdges (setEdges m u l) u = l := by
  induction m with
  | nil => simp [setEdges, lookupEdges, List.find?]
  | cons p ps ih =>
    by_cases hpu : p.1 = u
    · rw [setEdges, if_pos hpu]
      simp [lookupEdges, List.find?]
    · rw [setEdges, if_neg hpu]
      unfold lookupEdges
      rw [List.find?_cons_of_neg _ (by simpa using hpu)]
      exact ih

/-- A node absent from every entry looks up to the empty list. -/
lemma lookupEdges_eq_nil_of_notMem {m : List (Nat × List Edge)} {u : Nat}
    (h : u ∉ m.map Prod.fst) : lookupEdges m u = [] := by
  unfold lookupEdges
  rw [List.find?_eq_none.mpr]
  intro p hp
  simp only [decide_eq_true_eq]
  intro hpu
  exact h (List.mem_map.mpr ⟨p, hp, hpu⟩)

/-! Projection facts about the first-visit block. -/

/-- Populating never changes the remaining roots. -/
lemma populate_roots (g : Graph) (o : String) (st : DfsState) (c : Nat) :
    (populate_state g o st c).roots = st.roots := by
  unfold populate_state
  split <;> rfl

/-- Populating never changes the stack. -/
lemma populate_stack (g : Graph) (o : String) (st : DfsState) (c : Nat) :
    (populate_state g o st c).stack = st.stack := by
  unfold populate_state
  split <;> rfl

/-- Populating never changes the visited-edge set. -/
lemma populate_visited_edges (g : Graph) (o : String) (st : DfsState) (c : Nat) :
    (populate_state g o st c).visited_edges = st.visited_edges := by
  unfold populate_state
  split <;> rfl

/-- Populating never changes the accumulated yields. -/
lemma populate_out (g : Graph) (o : String) (st : DfsState) (c : Nat) :
    (populate_state g o st c).out = st.out := by
  unfold populate_state
  split <;> rfl

/-- The branch structure of one engine step: starting the next root,
backtracking from an exhausted node, silently skipping a visited edge, or
yielding a new edge and pushing its raw second component. -/
lemma dfs_step_cases (g : Graph) (o : String) (st st' : DfsState)
    (h : dfs_step g o st = some st') :
    (∃ r rs, st.stack = [] ∧ st.roots = r :: rs ∧
      st' = { st with roots := rs, stack := [r] }) ∨
    (∃ current rest, st.stack = current :: rest ∧
      (((lookupEdges (populate_state g o st current).edges current).getLast? =
          none ∧
        st' = { populate_state g o st current with stack := rest }) ∨
      (∃ e, (lookupEdges (populate_state g o st current).edges
          current).getLast? = some e ∧
        ((key g o e ∈ st.visited_edges ∧
          st' = { populate_state g o st current with
            edges := setEdges (populate_state g o st current).edges current
              (lookupEdges (populate_state g o st current).edges
                current).dropLast }) ∨
        (key g o e ∉ st.visited_edges ∧
          st' = { populate_state g o st current with
            edges := setEdges (populate_state g o st current).edges current
              (lookupEdges (populate_state g o st current).edges
                current).dropLast,
            visited_edges := key g o e :: st.visited_edges,
            stack := e.head :: st.stack,
            out := st.out ++ [e] }))))) := by
  rcases hst : st.stack with _ | ⟨current, rest⟩
  · rcases hr : st.roots with _ | ⟨r, rs⟩
    · simp [dfs_step, hst, hr] at h
    · simp only [dfs_step, hst, hr] at h
      exact Or.inl ⟨r, rs, rfl, rfl, (Option.some.inj h).symm⟩
  · simp only [dfs_step, hst] at h
    refine Or.inr ⟨current, rest, rfl, ?_⟩
    have hve := populate_visited_edges g o st current
    have hs := populate_stack g o st current
    have ho := populate_out g o st current
    rcases hl : (lookupEdges (populate_state g o st current).edges
        current).getLast? with _ | e
    · simp only [hl] at h
      exact Or.inl ⟨rfl, (Option.some.inj h).symm⟩
    · simp only [hl] at h
      refine Or.inr ⟨e, rfl, ?_⟩
      by_cases hk : key g o e ∈ st.visited_edges
      · have hk' : key g o e ∈ (populate_state g o st current).visited_edges := by
          rw [hve]; exact hk
        rw [if_pos hk'] at h
        exact Or.inl ⟨hk, (Option.some.inj h).symm⟩
      · have hk' : key g o e ∉ (populate_state g o st current).visited_edges := by
          rw [hve]; exact hk
        rw [if_neg hk'] at h
        rw [hve, hs, ho, hst] at h
        exact Or.inr ⟨hk, (Option.some.inj h).symm⟩

/-- An invariant preserved by every step holds after any bounded run. -/
lemma loop_run_invariant (f : DfsState → Option DfsState)
    (P : DfsState → Prop)
    (hstep : ∀ st st', P st → f st = some st' → P st') :
    ∀ (fuel : Nat) (st : DfsState), P st → P (loop_run f fuel st) := by
  intro fuel
  induction fuel with
  | zero => intro st hP; exact hP
  | succ n ih =>
    intro st hP
    rw [loop_run]
    rcases hf : f st with _ | st'
    · exact hP
    · exact ih st' (hstep st st' hP hf)

/-! C4: no canonical edge identity is yielded twice. -/

/-- Invariant: the identities of the yields so far are pairwise distinct
and all recorded in the visited-edge set. -/
def yieldsNodup (g : Graph) (o : String) (st : DfsState) : Prop :=
  (st.out.map (key g o)).Nodup ∧ ∀ e ∈ st.out, key g o e ∈ st.visited_edges

/-- `yieldsNodup` only looks at the yields and the visited-edge set. -/
lemma yieldsNodup_of_eq (g : Graph) (o : String) (st1 st2 : DfsState)
    (h1 : st2.out = st1.out) (h2 : st2.visited_edges = st1.visited_edges)
    (hP : yieldsNodup g o st1) : yieldsNodup g o st2 := by
  rw [yieldsNodup, h1, h2]
  exact hP

/-- One engine step preserves `yieldsNodup`: the only branch that yields
checks the visited-edge set first and records the new identity. -/
lemma yieldsNodup_step (g : Graph) (o : String) (st st' : DfsState)
    (hP : yieldsNodup g o st) (h : dfs_step g o st = some st') :
    yieldsNodup g o st' := by
  rcases dfs_step_cases g o st st' h with
    ⟨r, rs, hst, hr, hst'⟩ | ⟨current, rest, hst, hbr⟩
  · exact yieldsNodup_of_eq g o st st' (by rw [hst']) (by rw [hst']) hP
  · have ho := populate_out g o st current
    have hve := populate_visited_edges g o st current
    rcases hbr with ⟨hl, hst'⟩ | ⟨e, hl, hbr2⟩
    · exact yieldsNodup_of_eq g o st st' (by rw [hst']; exact ho)
        (by rw [hst']; exact hve) hP
    · rcases hbr2 with ⟨hk, hst'⟩ | ⟨hk, hst'⟩
      · exact yieldsNodup_of_eq g o st st' (by rw [hst']; exact ho)
          (by rw [hst']; exact hve) hP
      · subst hst'
        constructor
        · show ((st.out ++ [e]).map (key g o)).Nodup
          rw [List.map_append]
          refine (List.perm_append_singleton _ _).nodup_iff.mpr ?_
          refine List.nodup_cons.mpr ⟨?_, hP.1⟩
          intro hmem
          rcases List.mem_map.mp hmem with ⟨e', he', hke⟩
          exact hk (hke ▸ hP.2 e' he')
        · intro e' he'
          show key g o e' ∈ key g o e :: st.visited_edges
          rcases List.mem_append.mp he' with h1 | h1
          · exact List.mem_cons_of_mem _ (hP.2 e' h1)
          · rw [List.mem_singleton.mp h1]
            exact List.mem_cons_self _ _

/-- C4: no canonical edge identity appears twice in the output sequence of
one `edge_dfs` call — an already-visited identity is silently skipped. -/
theorem edge_dfs_no_repeated_identity (g : Graph) (s : Option (List Nat))
    (o : String) : ((edge_dfs g s o).map (key g o)).Nodup := by
  by_cases hn : (nbunch_iter g s).isEmpty
  · simp [edge_dfs, hn]
  · have hinv := loop_run_invariant (dfs_step g o) (yieldsNodup g o)
      (yieldsNodup_step g o) (fuelBound g o (nbunch_iter g s))
      (init_state (nbunch_iter g s))
      ⟨by simp [init_state], by simp [init_state]⟩
    simpa [edge_dfs, hn] using hinv.1

/-! C3 (amended): what `reverse` mode actually yields. -/

/-- What holds of every candidate and every yield in `reverse` mode: the
trailing tag is `Reverse` and tail, head and key are exactly those of a
stored in-edge — the stored orientation, not the swap. -/
def reverseYield (g : Graph) (e : Edge) : Prop :=
  e.dir = some Direction.Reverse ∧
  ∃ u e0, e0 ∈ g.in_edges u ∧ e.tail = e0.tail ∧ e.head = e0.head ∧
    e.mkey = e0.mkey

/-- In `reverse` mode on a directed graph the adapter enumerates exactly the
stored in-edges, each tagged `Reverse`. -/
lemma out_edges_reverse (g : Graph) (h : g.is_directed = true) (u : Nat) :
    out_edges g "reverse" u =
      (g.in_edges u).map (fun e => { e with dir := some Direction.Reverse }) := by
  have h1 : ignore_orientation g "reverse" = false := by
    rw [ignore_orientation, show decide ("reverse" = "ignore") = false from by decide,
      Bool.and_false]
  have h2 : reverse_orientation g "reverse" = true := by
    rw [reverse_orientation, h, show decide ("reverse" = "reverse") = true from by decide,
      Bool.and_self]
  simp [out_edges, h1, h2]

/-- Invariant in `reverse` mode: every pending candidate and every yield is
a `Reverse`-tagged stored in-edge. -/
def reverseInv (g : Graph) (st : DfsState) : Prop :=
  (∀ p ∈ st.edges, ∀ e ∈ p.2, reverseYield g e) ∧
  ∀ e ∈ st.out, reverseYield g e

/-- Populating a node in `reverse` mode only adds `Reverse`-tagged stored
in-edges to the pending lists. -/
lemma reverseInv_populate (g : Graph) (st : DfsState) (c : Nat)
    (h : g.is_directed = true) (hI : reverseInv g st) :
    reverseInv g (populate_state g "reverse" st c) := by
  constructor
  · intro p hp e he
    unfold populate_state at hp
    by_cases hc : c ∈ st.visited_nodes
    · rw [if_pos hc] at hp
      exact hI.1 p hp e he
    · rw [if_neg hc] at hp
      rcases mem_setEdges hp with h1 | h1
      · rw [h1] at he
        rcases List.mem_append.mp (List.mem_reverse.mp he) with h2 | h2
        · rcases mem_of_mem_lookupEdges h2 with ⟨q, hq, heq⟩
          exact hI.1 q hq e heq
        · rw [out_edges_reverse g h c] at h2
          rcases List.mem_map.mp h2 with ⟨e0, he0, hee⟩
          rw [← hee]
          exact ⟨rfl, c, e0, he0, rfl, rfl, rfl⟩
      · exact hI.1 p h1 e he
  · intro e he
    rw [populate_out] at he
    exact hI.2 e he

/-- One step in `reverse` mode preserves `reverseInv`. -/
lemma reverseInv_step (g : Graph) (h : g.is_directed = true)
    (st st' : DfsState) (hI : reverseInv g st)
    (hstep : dfs_step g "reverse" st = some st') : reverseInv g st' := by
  rcases dfs_step_cases g "reverse" st st' hstep with
    ⟨r, rs, hst, hr, hst'⟩ | ⟨current, rest, hst, hbr⟩
  · subst hst'
    exact ⟨fun p hp => hI.1 p hp, hI.2⟩
  · have hpop := reverseInv_populate g st current h hI
    rcases hbr with ⟨hl, hst'⟩ | ⟨e, hl, hbr2⟩
    · subst hst'
      exact ⟨fun p hp => hpop.1 p hp, fun e he => hpop.2 e he⟩
    · have hpend : ∀ e' ∈ lookupEdges
          (populate_state g "reverse" st current).edges current,
          reverseYield g e' := by
        intro e' he'
        rcases mem_of_mem_lookupEdges he' with ⟨p, hp, hep⟩
        exact hpop.1 p hp e' hep
      have hedges : ∀ p ∈ setEdges
          (populate_state g "reverse" st current).edges current
          (lookupEdges (populate_state g "reverse" st current).edges
            current).dropLast, ∀ e' ∈ p.2, reverseYield g e' := by
        intro p hp e' he'
        rcases mem_setEdges hp with h1 | h1
        · rw [h1] at he'
          exact hpend e' ((List.dropLast_sublist _).subset he')
        · exact hpop.1 p h1 e' he'
      rcases hbr2 with ⟨hk, hst'⟩ | ⟨hk, hst'⟩
      · subst hst'
        exact ⟨hedges, fun e' he' => hpop.2 e' he'⟩
      · subst hst'
        refine ⟨hedges, ?_⟩
        intro e' he'
        rcases List.mem_append.mp he' with h1 | h1
        · exact hI.2 e' h1
        · rw [List.mem_singleton.mp h1]
          exact hpend e (mem_of_getLast?_eq_some hl)

/-- C3 (amended): on a directed graph under orientation `reverse`, every
yielded tuple carries the tag `Reverse` and keeps the true stored tail,
head and key of an in-edge of the host graph — tail and head are not
swapped; only the tag records the reversal. -/
theorem edge_dfs_reverse_tag_and_stored (g : Graph) (s : Option (List Nat))
    (h : g.is_directed = true) :
    ∀ e ∈ edge_dfs g s "reverse",
      e.dir = some Direction.Reverse ∧
      ∃ u e0, e0 ∈ g.in_edges u ∧ e.tail = e0.tail ∧ e.head = e0.head ∧
        e.mkey = e0.mkey := by
  intro e he
  by_cases hn : (nbunch_iter g s).isEmpty
  · simp [edge_dfs, hn] at he
  · have hinv := loop_run_invariant (dfs_step g "reverse") (reverseInv g)
      (reverseInv_step g h) (fuelBound g "reverse" (nbunch_iter g s))
      (init_state (nbunch_iter g s))
      ⟨by simp [init_state], by simp [init_state]⟩
    simp only [edge_dfs, hn, Bool.false_eq_true, if_false] at he
    exact hinv.2 e he

/-- C3 (amended) witness: on the graph with the single stored edge (0,1),
traversed in `reverse` from source 1, the yielded tuple (0,1,Reverse) is
`Reverse`-tagged and keeps the stored tail and head. -/
theorem edge_dfs_reverse_tag_and_stored_witness :
    ({ tail := 0, head := 1, mkey := none,
        dir := some Direction.Reverse } : Edge).dir = some Direction.Reverse ∧
    ∃ u e0, e0 ∈ g_01.in_edges u ∧
      ({ tail := 0, head := 1, mkey := none,
          dir := some Direction.Reverse } : Edge).tail = e0.tail ∧
      ({ tail := 0, head := 1, mkey := none,
          dir := some Direction.Reverse } : Edge).head = e0.head ∧
      ({ tail := 0, head := 1, mkey := none,
          dir := some Direction.Reverse } : Edge).mkey = e0.mkey :=
  edge_dfs_reverse_tag_and_stored g_01 (some [1]) rfl
    { tail := 0, head := 1, mkey := none, dir := some Direction.Reverse }
    (by decide)

/-! C8: termination. A lexicographic measure packed into one natural
number decreases at every engine step. -/

/-- Looking up the head entry when it matches. -/
lemma lookupEdges_cons_pos {p : Nat × List Edge} {ps : List (Nat × List Edge)}
    {u : Nat} (h : p.1 = u) : lookupEdges (p :: ps) u = p.2 := by
  unfold lookupEdges
  rw [List.find?_cons_of_pos _ (by simpa using h)]

/-- Looking up past the head entry when it does not match. -/
lemma lookupEdges_cons_neg {p : Nat × List Edge} {ps : List (Nat × List Edge)}
    {u : Nat} (h : p.1 ≠ u) : lookupEdges (p :: ps) u = lookupEdges ps u := by
  unfold lookupEdges
  rw [List.find?_cons_of_neg _ (by simpa using h)]

/-- Total number of edges currently pending across all nodes. -/
def pendingTotal (m : List (Nat × List Edge)) : Nat :=
  (m.map (fun p => p.2.length)).sum

/-- Replacing one entry changes the pending total by the difference of the
entry lengths. -/
lemma pendingTotal_setEdges (m : List (Nat × List Edge)) (u : Nat)
    (l : List Edge) :
    pendingTotal (setEdges m u l) + (lookupEdges m u).length =
      pendingTotal m + l.length := by
  induction m with
  | nil => simp [setEdges, pendingTotal, lookupEdges, List.find?]
  | cons p ps ih =>
    by_cases hpu : p.1 = u
    · rw [setEdges, if_pos hpu, lookupEdges_cons_pos hpu]
      simp only [pendingTotal, List.map_cons, List.sum_cons]
      omega
    · rw [setEdges, if_neg hpu, lookupEdges_cons_neg hpu]
      simp only [pendingTotal, List.map_cons, List.sum_cons]
      simp only [pendingTotal] at ih
      omega

/-- Count of not-yet-visited edge identities (first lexicographic
component). -/
def muE (g : Graph) (o : String) (st : DfsState) : Nat :=
  ((univIds g o).filter (fun i => decide (i ∉ st.visited_edges))).length

/-- Count of not-yet-visited enumerable nodes (second component). -/
def muN (g : Graph) (st : DfsState) : Nat :=
  ((univNodes g).filter (fun u => decide (u ∉ st.visited_nodes))).length

/-- Pending edges plus stack depth plus weighted remaining roots (third
component). -/
def mu3 (st : DfsState) : Nat :=
  pendingTotal st.edges + st.stack.length + 2 * st.roots.length

/-- The packed decreasing measure of a traversal state. -/
def measureFn (g : Graph) (o : String) (st : DfsState) : Nat :=
  (muE g o st + muN g st) * ((univIds g o).length + 2) + mu3 st

/-- Invariant: every pending candidate edge has its identity in the
universe of enumerable identities. -/
def invKeys (g : Graph) (o : String) (st : DfsState) : Prop :=
  ∀ p ∈ st.edges, ∀ e ∈ p.2, key g o e ∈ univIds g o

/-- Growing the visited set cannot grow the not-yet-visited count. -/
lemma filter_notMem_mono {α : Type} [DecidableEq α] (l v : List α) (x : α) :
    (l.filter (fun i => decide (i ∉ x :: v))).length ≤
      (l.filter (fun i => decide (i ∉ v))).length := by
  induction l with
  | nil => simp
  | cons a as ih =>
    by_cases hav : a ∈ v
    · have h1 : (decide (a ∉ x :: v)) = false := by
        simp [List.mem_cons, hav]
      have h2 : (decide (a ∉ v)) = false := by simp [hav]
      simp only [List.filter_cons, h1, h2, Bool.false_eq_true, if_false]
      exact ih
    · by_cases hax : a = x
      · have h1 : (decide (a ∉ x :: v)) = false := by
          simp [List.mem_cons, hax]
        have h2 : (decide (a ∉ v)) = true := by simp [hav]
        simp only [List.filter_cons, h1, h2, Bool.false_eq_true, if_false,
          if_true, List.length_cons]
        exact le_trans ih (Nat.le_succ _)
      · have h1 : (decide (a ∉ x :: v)) = true := by
          simp [List.mem_cons, hax, hav]
        have h2 : (decide (a ∉ v)) = true := by simp [hav]
        simp only [List.filter_cons, h1, h2, if_true, List.length_cons]
        exact Nat.succ_le_succ ih

/-- Visiting a fresh member of the universe strictly shrinks the
not-yet-visited count. -/
lemma filter_notMem_strict {α : Type} [DecidableEq α] (l v : List α) (x : α)
    (hx : x ∈ l) (hv : x ∉ v) :
    (l.filter (fun i => decide (i ∉ x :: v))).length <
      (l.filter (fun i => decide (i ∉ v))).length := by
  induction l with
  | nil => simp at hx
  | cons a as ih =>
    rcases List.mem_cons.mp hx with rfl | has
    · have h1 : (decide (x ∉ x :: v)) = false := by simp
      have h2 : (decide (x ∉ v)) = true := by simp [hv]
      simp only [List.filter_cons, h1, h2, Bool.false_eq_true, if_false,
        if_true, List.length_cons]
      exact Nat.lt_succ_of_le (filter_notMem_mono as v x)
    · by_cases hav : a ∈ v
      · have h1 : (decide (a ∉ x :: v)) = false := by
          simp [List.mem_cons, hav]
        have h2 : (decide (a ∉ v)) = false := by simp [hav]
        simp only [List.filter_cons, h1, h2, Bool.false_eq_true, if_false]
        exact ih has
      · by_cases hax : a = x
        · have h1 : (decide (a ∉ x :: v)) = false := by
            simp [List.mem_cons, hax]
          have h2 : (decide (a ∉ v)) = true := by simp [hav]
          simp only [List.filter_cons, h1, h2, Bool.false_eq_true, if_false,
            if_true, List.length_cons]
          exact Nat.lt_succ_of_lt (ih has)
        · have h1 : (decide (a ∉ x :: v)) = true := by
            simp [List.mem_cons, hax, hav]
          have h2 : (decide (a ∉ v)) = true := by simp [hav]
          simp only [List.filter_cons, h1, h2, if_true, List.length_cons]
          exact Nat.succ_lt_succ (ih has)

/-- Visiting something outside the universe leaves the count unchanged. -/
lemma filter_notMem_congr {α : Type} [DecidableEq α] (l v : List α) (x : α)
    (hx : x ∉ l) :
    l.filter (fun i => decide (i ∉ x :: v)) =
      l.filter (fun i => decide (i ∉ v)) := by
  apply List.filter_congr
  intro a ha
  have hax : a ≠ x := fun h => hx (h ▸ ha)
  apply decide_eq_decide.mpr
  simp [List.mem_cons, hax]

/-- A node with no stored enumeration has no candidate edges in any
mode. -/
lemma out_edges_eq_nil_of_notMem_univ (g : Graph) (o : String) (u : Nat)
    (h : u ∉ univNodes g) : out_edges g o u = [] := by
  have h1 : u ∉ g.outAdj.map Prod.fst := fun hm => h (by simp [univNodes, hm])
  have h2 : u ∉ g.inAdj.map Prod.fst := fun hm => h (by simp [univNodes, hm])
  have h3 : u ∉ g.iterAdj.map Prod.fst := fun hm => h (by simp [univNodes, hm])
  unfold out_edges
  split
  · rw [Graph.out_edges, Graph.in_edges, lookupEdges_eq_nil_of_notMem h1,
      lookupEdges_eq_nil_of_notMem h2]
    simp
  · split
    · rw [Graph.in_edges, lookupEdges_eq_nil_of_notMem h2]
      simp
    · rw [Graph.edges_iter, lookupEdges_eq_nil_of_notMem h3]

/-- Candidate identities of enumerable nodes are in the identity
universe. -/
lemma key_mem_univIds (g : Graph) (o : String) (u : Nat) (e : Edge)
    (hu : u ∈ univNodes g) (he : e ∈ out_edges g o u) :
    key g o e ∈ univIds g o :=
  List.mem_flatMap.mpr ⟨u, hu, List.mem_map_of_mem _ he⟩

/-- One block of a flat map is no longer than the whole. -/
lemma length_le_flatMap {α β : Type} (l : List α) (f : α → List β) (u : α)
    (hu : u ∈ l) : (f u).length ≤ (l.flatMap f).length := by
  induction l with
  | nil => simp at hu
  | cons a as ih =>
    rw [List.flatMap_cons, List.length_append]
    rcases List.mem_cons.mp hu with rfl | h
    · exact Nat.le_add_right _ _
    · exact le_trans (ih h) (Nat.le_add_left _ _)

/-- A single node's candidate list is bounded by the identity universe. -/
lemma out_edges_length_le (g : Graph) (o : String) (u : Nat)
    (hu : u ∈ univNodes g) :
    (out_edges g o u).length ≤ (univIds g o).length := by
  have h := length_le_flatMap (univNodes g)
    (fun u => (out_edges g o u).map (key g o)) u hu
  simpa [univIds] using h

/-- Arithmetic: strict drop in the weighted component dominates a bounded
rise in the light component. -/
lemma measure_dec_lt_s (s' s c' c tc : Nat) (hs : s' + 1 ≤ s)
    (hc : c' ≤ c + tc) : s' * (tc + 2) + c' < s * (tc + 2) + c := by
  have h2 : s' * (tc + 2) + (tc + 2) ≤ s * (tc + 2) := by
    have h3 := Nat.mul_le_mul_right (tc + 2) hs
    calc s' * (tc + 2) + (tc + 2) = (s' + 1) * (tc + 2) := by ring
      _ ≤ s * (tc + 2) := h3
  have hc2 : c' + 1 ≤ (tc + 2) + c := by omega
  show s' * (tc + 2) + c' + 1 ≤ s * (tc + 2) + c
  calc s' * (tc + 2) + c' + 1 = s' * (tc + 2) + (c' + 1) := by ring
    _ ≤ s' * (tc + 2) + ((tc + 2) + c) := Nat.add_le_add_left hc2 _
    _ = (s' * (tc + 2) + (tc + 2)) + c := by ring
    _ ≤ s * (tc + 2) + c := Nat.add_le_add_right h2 _

/-- Arithmetic: with the weighted component non-increasing, a strict drop in
the light component suffices. -/
lemma measure_dec_le_c (s' s c' c W : Nat) (hs : s' ≤ s) (hc : c' < c) :
    s' * W + c' < s * W + c :=
  lt_of_le_of_lt (Nat.add_le_add_right (Nat.mul_le_mul_right _ hs) _)
    (Nat.add_lt_add_left hc _)

/-- Populating an already-visited node changes nothing. -/
lemma populate_eq_of_visited (g : Graph) (o : String) (st : DfsState)
    (c : Nat) (hc : c ∈ st.visited_nodes) : populate_state g o st c = st := by
  unfold populate_state
  rw [if_pos hc]

/-- Populating a fresh node extends its pending list and marks it
visited. -/
lemma populate_eq_of_not_visited (g : Graph) (o : String) (st : DfsState)
    (c : Nat) (hc : c ∉ st.visited_nodes) :
    populate_state g o st c =
      { st with
        edges := setEdges st.edges c
          ((lookupEdges st.edges c ++ out_edges g o c).reverse),
        visited_nodes := c :: st.visited_nodes } := by
  unfold populate_state
  rw [if_neg hc]

/-- The pending list of a freshly populated node. -/
lemma populate_lookup_of_not_visited (g : Graph) (o : String) (st : DfsState)
    (c : Nat) (hc : c ∉ st.visited_nodes) :
    lookupEdges (populate_state g o st c).edges c =
      (lookupEdges st.edges c ++ out_edges g o c).reverse := by
  rw [populate_eq_of_not_visited g o st c hc]
  exact lookupEdges_setEdges_self st.edges c _

/-- Populating a fresh node grows the pending total by its candidate
count. -/
lemma populate_pendingTotal_of_not_visited (g : Graph) (o : String)
    (st : DfsState) (c : Nat) (hc : c ∉ st.visited_nodes) :
    pendingTotal (populate_state g o st c).edges =
      pendingTotal st.edges + (out_edges g o c).length := by
  rw [populate_eq_of_not_visited g o st c hc]
  have h2 := pendingTotal_setEdges st.edges c
    ((lookupEdges st.edges c ++ out_edges g o c).reverse)
  rw [List.length_reverse, List.length_append] at h2
  show pendingTotal (setEdges st.edges c
    ((lookupEdges st.edges c ++ out_edges g o c).reverse)) =
    pendingTotal st.edges + (out_edges g o c).length
  omega

/-- Populating preserves the candidate-identity invariant. -/
lemma invKeys_populate (g : Graph) (o : String) (st : DfsState) (c : Nat)
    (hI : invKeys g o st) : invKeys g o (populate_state g o st c) := by
  intro p hp e he
  unfold populate_state at hp
  by_cases hc : c ∈ st.visited_nodes
  · rw [if_pos hc] at hp
    exact hI p hp e he
  · rw [if_neg hc] at hp
    rcases mem_setEdges hp with h1 | h1
    · rw [h1] at he
      rcases List.mem_append.mp (List.mem_reverse.mp he) with h2 | h2
      · rcases mem_of_mem_lookupEdges h2 with ⟨q, hq, heq⟩
        exact hI q hq e heq
      · by_cases hu : c ∈ univNodes g
        · exact key_mem_univIds g o c e hu h2
        · rw [out_edges_eq_nil_of_notMem_univ g o c hu] at h2
          simp at h2
    · exact hI p h1 e he

/-- Every engine step preserves the candidate-identity invariant and
strictly decreases the packed measure. -/
lemma dfs_step_dec (g : Graph) (o : String) (st st' : DfsState)
    (hI : invKeys g o st) (h : dfs_step g o st = some st') :
    invKeys g o st' ∧ measureFn g o st' < measureFn g o st := by
  rcases dfs_step_cases g o st st' h with
    ⟨r, rs, hst, hr, hst'⟩ | ⟨current, rest, hst, hbr⟩
  · -- start the next root
    refine ⟨by rw [hst']; exact fun p hp => hI p hp, ?_⟩
    have hE : muE g o st' = muE g o st := by rw [hst']; rfl
    have hN : muN g st' = muN g st := by rw [hst']; rfl
    have h3 : mu3 st' + 1 = mu3 st := by
      rw [hst']
      show pendingTotal st.edges + [r].length + 2 * rs.length + 1 =
        pendingTotal st.edges + st.stack.length + 2 * st.roots.length
      rw [hst, hr]
      simp only [List.length_cons, List.length_nil]
      omega
    unfold measureFn
    rw [hE, hN]
    omega
  · by_cases hc : current ∈ st.visited_nodes
    · -- the top node is already populated
      have hPeq := populate_eq_of_visited g o st current hc
      rw [hPeq] at hbr
      have hpend : ∀ e' ∈ lookupEdges st.edges current,
          key g o e' ∈ univIds g o := by
        intro e' he'
        rcases mem_of_mem_lookupEdges he' with ⟨p, hp, hep⟩
        exact hI p hp e' hep
      rcases hbr with ⟨hl, hst'⟩ | ⟨e, hl, hbr2⟩
      · -- backtrack
        refine ⟨by rw [hst']; exact fun p hp => hI p hp, ?_⟩
        have hE : muE g o st' = muE g o st := by rw [hst']; rfl
        have hN : muN g st' = muN g st := by rw [hst']; rfl
        have h3 : mu3 st' + 1 = mu3 st := by
          rw [hst']
          show pendingTotal st.edges + rest.length + 2 * st.roots.length + 1 =
            pendingTotal st.edges + st.stack.length + 2 * st.roots.length
          rw [hst]
          simp only [List.length_cons]
          omega
        unfold measureFn
        rw [hE, hN]
        omega
      · have hemem := mem_of_getLast?_eq_some hl
        have hne : lookupEdges st.edges current ≠ [] := by
          intro hnil
          rw [hnil] at hl
          simp at hl
        have hpos := List.length_pos.mpr hne
        have hdl := List.length_dropLast (lookupEdges st.edges current)
        have hptset := pendingTotal_setEdges st.edges current
          (lookupEdges st.edges current).dropLast
        have hinv2 : invKeys g o
            { st with
              edges := setEdges st.edges current
                (lookupEdges st.edges current).dropLast } := by
          intro p hp e' he'
          rcases mem_setEdges hp with h1 | h1
          · rw [h1] at he'
            exact hpend e' ((List.dropLast_sublist _).subset he')
          · exact hI p h1 e' he'
        rcases hbr2 with ⟨hk, hst'⟩ | ⟨hk, hst'⟩
        · -- silently skip a visited edge
          refine ⟨by rw [hst']; exact fun p hp => hinv2 p hp, ?_⟩
          have hE : muE g o st' = muE g o st := by rw [hst']; rfl
          have hN : muN g st' = muN g st := by rw [hst']; rfl
          have h3 : mu3 st' + 1 = mu3 st := by
            rw [hst']
            show pendingTotal (setEdges st.edges current
                (lookupEdges st.edges current).dropLast) + st.stack.length +
                2 * st.roots.length + 1 =
              pendingTotal st.edges + st.stack.length + 2 * st.roots.length
            omega
          unfold measureFn
          rw [hE, hN]
          omega
        · -- yield a new edge
          refine ⟨by rw [hst']; exact fun p hp => hinv2 p hp, ?_⟩
          have hEs : muE g o st' < muE g o st := by
            rw [hst']
            show ((univIds g o).filter (fun i =>
                decide (i ∉ key g o e :: st.visited_edges))).length <
              ((univIds g o).filter (fun i =>
                decide (i ∉ st.visited_edges))).length
            exact filter_notMem_strict _ _ _ (hpend e hemem) hk
          have hN : muN g st' = muN g st := by rw [hst']; rfl
          have h3 : mu3 st' = mu3 st := by
            rw [hst']
            show pendingTotal (setEdges st.edges current
                (lookupEdges st.edges current).dropLast) +
                (e.head :: st.stack).length + 2 * st.roots.length =
              pendingTotal st.edges + st.stack.length + 2 * st.roots.length
            simp only [List.length_cons]
            omega
          unfold measureFn
          apply measure_dec_lt_s
          · omega
          · omega
    · -- the top node must first be populated
      have hPeq' := populate_eq_of_not_visited g o st current hc
      have hlook := populate_lookup_of_not_visited g o st current hc
      have hptP := populate_pendingTotal_of_not_visited g o st current hc
      have hIP := invKeys_populate g o st current hI
      have hvn : (populate_state g o st current).visited_nodes =
          current :: st.visited_nodes := by
        rw [hPeq']
      have hpend : ∀ e' ∈
          lookupEdges (populate_state g o st current).edges current,
          key g o e' ∈ univIds g o := by
        intro e' he'
        rcases mem_of_mem_lookupEdges he' with ⟨p, hp, hep⟩
        exact hIP p hp e' hep
      have hmuEP : muE g o (populate_state g o st current) = muE g o st := by
        unfold muE
        simp only [populate_visited_edges]
      have hmuNP : muN g (populate_state g o st current) ≤ muN g st := by
        unfold muN
        simp only [hvn]
        exact filter_notMem_mono _ _ _
      have hnewtc : (out_edges g o current).length ≤ (univIds g o).length := by
        by_cases hu : current ∈ univNodes g
        · exact out_edges_length_le g o current hu
        · rw [out_edges_eq_nil_of_notMem_univ g o current hu]
          simp
      rcases hbr with ⟨hl, hst'⟩ | ⟨e, hl, hbr2⟩
      · -- populate found nothing: backtrack
        refine ⟨by rw [hst']; exact fun p hp => hIP p hp, ?_⟩
        have hLnil : (lookupEdges st.edges current ++
            out_edges g o current).reverse = [] := by
          rw [← hlook]
          exact List.getLast?_eq_none_iff.mp hl
        have hnil2 : out_edges g o current = [] :=
          (List.append_eq_nil.mp (List.reverse_eq_nil_iff.mp hLnil)).2
        have hpt0 : pendingTotal (populate_state g o st current).edges =
            pendingTotal st.edges := by
          rw [hptP, hnil2]
          simp
        have hE : muE g o st' = muE g o st := by
          rw [hst']
          show muE g o (populate_state g o st current) = muE g o st
          exact hmuEP
        have hN : muN g st' ≤ muN g st := by
          rw [hst']
          show muN g (populate_state g o st current) ≤ muN g st
          exact hmuNP
        have h3 : mu3 st' + 1 = mu3 st := by
          rw [hst']
          show pendingTotal (populate_state g o st current).edges +
              rest.length + 2 * (populate_state g o st current).roots.length +
              1 =
            pendingTotal st.edges + st.stack.length + 2 * st.roots.length
          rw [populate_roots, hpt0, hst]
          simp only [List.length_cons]
          omega
        unfold measureFn
        apply measure_dec_le_c
        · omega
        · omega
      · have hkey : key g o e ∈ univIds g o :=
          hpend e (mem_of_getLast?_eq_some hl)
        have hne : lookupEdges (populate_state g o st current).edges
            current ≠ [] := by
          intro hnil
          rw [hnil] at hl
          simp at hl
        have hpos := List.length_pos.mpr hne
        have hdl := List.length_dropLast
          (lookupEdges (populate_state g o st current).edges current)
        have hptset := pendingTotal_setEdges
          (populate_state g o st current).edges current
          (lookupEdges (populate_state g o st current).edges current).dropLast
        have hinv2 : invKeys g o
            { populate_state g o st current with
              edges := setEdges (populate_state g o st current).edges current
                (lookupEdges (populate_state g o st current).edges
                  current).dropLast } := by
          intro p hp e' he'
          rcases mem_setEdges hp with h1 | h1
          · rw [h1] at he'
            exact hpend e' ((List.dropLast_sublist _).subset he')
          · exact hIP p h1 e' he'
        rcases hbr2 with ⟨hk, hst'⟩ | ⟨hk, hst'⟩
        · -- skip after populating
          refine ⟨by rw [hst']; exact fun p hp => hinv2 p hp, ?_⟩
          have hE : muE g o st' = muE g o st := by
            rw [hst']
            show muE g o (populate_state g o st current) = muE g o st
            exact hmuEP
          have hN : muN g st' = muN g (populate_state g o st current) := by
            rw [hst']; rfl
          have h3 : mu3 st' + 1 = mu3 st + (out_edges g o current).length := by
            rw [hst']
            show pendingTotal (setEdges
                (populate_state g o st current).edges current
                (lookupEdges (populate_state g o st current).edges
                  current).dropLast) +
                (populate_state g o st current).stack.length +
                2 * (populate_state g o st current).roots.length + 1 =
              pendingTotal st.edges + st.stack.length +
                2 * st.roots.length + (out_edges g o current).length
            rw [populate_stack, populate_roots]
            omega
          by_cases hu : current ∈ univNodes g
          · have hNstrict : muN g (populate_state g o st current) <
                muN g st := by
              unfold muN
              simp only [hvn]
              exact filter_notMem_strict _ _ _ hu hc
            unfold measureFn
            apply measure_dec_lt_s
            · omega
            · omega
          · have hnil2 : out_edges g o current = [] :=
              out_edges_eq_nil_of_notMem_univ g o current hu
            rw [hnil2] at h3
            simp only [List.length_nil, Nat.add_zero] at h3
            have hNeq : muN g (populate_state g o st current) = muN g st := by
              unfold muN
              simp only [hvn]
              exact congrArg List.length (filter_notMem_congr _ _ _ hu)
            unfold measureFn
            apply measure_dec_le_c
            · omega
            · omega
        · -- yield after populating
          refine ⟨by rw [hst']; exact fun p hp => hinv2 p hp, ?_⟩
          have hEs : muE g o st' < muE g o st := by
            rw [hst']
            show ((univIds g o).filter (fun i =>
                decide (i ∉ key g o e :: st.visited_edges))).length <
              ((univIds g o).filter (fun i =>
                decide (i ∉ st.visited_edges))).length
            exact filter_notMem_strict _ _ _ hkey hk
          have hN : muN g st' = muN g (populate_state g o st current) := by
            rw [hst']; rfl
          have h3 : mu3 st' = mu3 st + (out_edges g o current).length := by
            rw [hst']
            show pendingTotal (setEdges
                (populate_state g o st current).edges current
                (lookupEdges (populate_state g o st current).edges
                  current).dropLast) +
                (e.head :: st.stack).length +
                2 * (populate_state g o st current).roots.length =
              pendingTotal st.edges + st.stack.length +
                2 * st.roots.length + (out_edges g o current).length
            rw [populate_roots, hst]
            simp only [List.length_cons]
            omega
          unfold measureFn
          apply measure_dec_lt_s
          · omega
          · omega

/-- A completed run is a fixed point of `loop_run`. -/
lemma loop_run_of_none (f : DfsState → Option DfsState) (st : DfsState)
    (h : f st = none) : ∀ n, loop_run f n st = st := by
  intro n
  cases n with
  | zero => rfl
  | succ m => simp only [loop_run, h]

/-- Fuel splits: running `a + b` steps is running `a` then `b`. -/
lemma loop_run_add (f : DfsState → Option DfsState) (a b : Nat)
    (st : DfsState) :
    loop_run f (a + b) st = loop_run f b (loop_run f a st) := by
  induction a generalizing st with
  | zero =>
    rw [Nat.zero_add]
    rfl
  | succ m ih =>
    rw [show m + 1 + b = (m + b) + 1 from by omega]
    rcases hf : f st with _ | st'
    · simp only [loop_run, hf]
      rw [loop_run_of_none f st hf]
    · simp only [loop_run, hf]
      exact ih st'

/-- With fuel at least the measure, the run reaches a state on which the
step function reports completion. -/
lemma run_completes (g : Graph) (o : String) :
    ∀ (fuel : Nat) (st : DfsState), invKeys g o st →
      measureFn g o st ≤ fuel →
      dfs_step g o (loop_run (dfs_step g o) fuel st) = none := by
  intro fuel
  induction fuel with
  | zero =>
    intro st hI hm
    rcases hf : dfs_step g o st with _ | st'
    · exact hf
    · have hd := (dfs_step_dec g o st st' hI hf).2
      omega
  | succ n ih =>
    intro st hI hm
    rcases hf : dfs_step g o st with _ | st'
    · simp only [loop_run, hf]
    · simp only [loop_run, hf]
      have hd := dfs_step_dec g o st st' hI hf
      refine ih st' hd.1 ?_
      have := hd.2
      omega

/-- The starting state satisfies the candidate-identity invariant. -/
lemma invKeys_init (g : Graph) (o : String) (nodes : List Nat) :
    invKeys g o (init_state nodes) := by
  intro p hp
  simp [init_state] at hp

/-- The fuel budget equals the measure of the starting state. -/
lemma measureFn_init (g : Graph) (o : String) (nodes : List Nat) :
    measureFn g o (init_state nodes) = fuelBound g o nodes := by
  have hE : muE g o (init_state nodes) = (univIds g o).length := by
    show ((univIds g o).filter
      (fun i => decide (i ∉ ([] : List EdgeId)))).length = (univIds g o).length
    rw [List.filter_eq_self.mpr (fun a _ => by simp)]
  have hN : muN g (init_state nodes) = (univNodes g).length := by
    show ((univNodes g).filter
      (fun u => decide (u ∉ ([] : List Nat)))).length = (univNodes g).length
    rw [List.filter_eq_self.mpr (fun a _ => by simp)]
  have h3 : mu3 (init_state nodes) = 2 * nodes.length := by
    show pendingTotal [] + ([] : List Nat).length + 2 * nodes.length =
      2 * nodes.length
    simp [pendingTotal]
  unfold measureFn fuelBound
  rw [hE, hN, h3]

/-- The step function reports completion exactly when both the stack and
the remaining roots are exhausted. -/
lemma dfs_step_none (g : Graph) (o : String) (st : DfsState)
    (h : dfs_step g o st = none) : st.stack = [] ∧ st.roots = [] := by
  rcases hst : st.stack with _ | ⟨c, rest⟩
  · rcases hr : st.roots with _ | ⟨r, rs⟩
    · exact ⟨rfl, rfl⟩
    · simp [dfs_step, hst, hr] at h
  · simp only [dfs_step, hst] at h
    rcases hl : (lookupEdges (populate_state g o st c).edges c).getLast?
      with _ | e
    · simp [hl] at h
    · simp only [hl] at h
      by_cases hk : key g o e ∈ (populate_state g o st c).visited_edges
      · rw [if_pos hk] at h
        exact Option.noConfusion h
      · rw [if_neg hk] at h
        exact Option.noConfusion h

/-- C8: the traversal terminates for every finite graph, source set and
orientation mode: within the computed fuel budget the stack and the root
list shrink to empty, and granting any extra fuel does not change the
final state (so the produced edge sequence is finite and complete). -/
theorem edge_dfs_terminates (g : Graph) (s : Option (List Nat)) (o : String) :
    (loop_run (dfs_step g o) (fuelBound g o (nbunch_iter g s))
      (init_state (nbunch_iter g s))).stack = [] ∧
    (loop_run (dfs_step g o) (fuelBound g o (nbunch_iter g s))
      (init_state (nbunch_iter g s))).roots = [] ∧
    ∀ extra : Nat, loop_run (dfs_step g o)
        (fuelBound g o (nbunch_iter g s) + extra)
        (init_state (nbunch_iter g s)) =
      loop_run (dfs_step g o) (fuelBound g o (nbunch_iter g s))
        (init_state (nbunch_iter g s)) := by
  have hdone := run_completes g o (fuelBound g o (nbunch_iter g s))
    (init_state (nbunch_iter g s)) (invKeys_init g o _)
    (le_of_eq (measureFn_init g o _))
  have hsr := dfs_step_none g o _ hdone
  refine ⟨hsr.1, hsr.2, ?_⟩
  intro extra
  rw [loop_run_add]
  exact loop_run_of_none _ _ hdone extra
